import Mathlib

/-!
Verification of the progress-tracking and task-coordination subsystem of the
indexscrapper repository (src/property_scraper.py, src/github_storage.py).

The Python progress file is a JSON dict with keys `last_run`, `completed`,
`current` and `vm_tasks`.  We embed it shallowly:

* scalar field values are modelled by their f-string rendering (`String`);
  a JSON `null` is `Option.none`;
* a dict key that some code path tests for absence (`'completed'`,
  `'vm_tasks'`) is modelled as an `Option` around the value, `none` meaning
  the key is absent; reading an absent key is a `KeyError`, modelled with
  `Except String`;
* `vm_tasks` is a Python dict, modelled as an association list in insertion
  order: assignment to an existing key updates it in place, assignment to a
  fresh key appends;
* timestamps are integers (minutes); `datetime.now()` is an explicit `now`
  argument; an absent or unparseable `last_active` string is `none` (both
  are caught by the same `except (ValueError, KeyError)` and skipped);
* a lease's `current_task` sub-dict may be absent or not a dict (`none`,
  caught as `KeyError`/`TypeError`), and each of its five fields may be
  absent (outer `none`, a `KeyError` when read) or `null` (inner `none`,
  rendered `"None"` by the f-string).
-/

namespace IndexScrapper

/-- The `current` sub-record of the progress file: five nullable fields
(lines 138-144 of src/property_scraper.py). -/
structure Current where
  year : Option String
  district : Option String
  taluka : Option String
  village : Option String
  doc_number : Option String
deriving DecidableEq

/-- The `current_task` record stored inside a `vm_tasks` lease entry.  Each
field may be absent (outer `none`, raising `KeyError` when read at line 1447)
or `null` (inner `none`, rendered as `"None"` by the f-string). -/
structure LeaseTask where
  year : Option (Option String)
  district : Option (Option String)
  taluka : Option (Option String)
  village : Option (Option String)
  doc_number : Option (Option String)
deriving DecidableEq

/-- One `vm_tasks` entry, covering the lease shapes the program itself
writes (a dict whose `last_active`, when present, is a string).
`last_active = none` models a missing key or an ISO string
`datetime.fromisoformat` rejects (both caught at line 1440 and the entry
skipped); `current_task = none` models a missing key or a non-dict value
(both caught at line 1452 and the entry skipped).  A non-string
`last_active` value and a non-dict entry — on which the check raises an
uncaught `TypeError` — are outside this type; they are modelled by
`RawVmInfo` further below. -/
structure VmInfo where
  last_active : Option Int
  current_task : Option LeaseTask
deriving DecidableEq

/-- The progress record.  `completed` and `vm_tasks` are `Option` because the
source branches on the presence of these keys (`'completed' in
local_progress`, `'vm_tasks' not in self.progress`); `last_run` and `current`
are never tested for presence, so they are modelled as always present. -/
structure Progress where
  last_run : Option String
  completed : Option (List String)
  current : Current
  vm_tasks : Option (List (String × VmInfo))
deriving DecidableEq

/-- The fresh empty record created when no progress file exists
(lines 135-146 of src/property_scraper.py). -/
def freshProgress : Progress :=
  { last_run := none
    completed := some []
    current := ⟨none, none, none, none, none⟩
    vm_tasks := some [] }

/-- Rendering of a nullable scalar inside an f-string: Python prints `None`
for a null value. -/
def pyOptStr : Option String → String
  | none => "None"
  | some s => s

/-- The combination key `f"{year}_{district}_{taluka}_{village}_{doc_number}"`
(line 1480 of src/property_scraper.py). -/
def combinationKey (y d t v dn : String) : String :=
  y ++ "_" ++ d ++ "_" ++ t ++ "_" ++ v ++ "_" ++ dn

/-- The combination key of a lease's `current_task` (line 1447).  `none` when
any of the five keys is absent: the `KeyError` is caught and the lease
skipped.  Null field values do not raise; they render as `"None"`. -/
def leaseCombination (t : LeaseTask) : Option String :=
  match t.year, t.district, t.taluka, t.village, t.doc_number with
  | some y, some d, some ta, some v, some dn =>
      some (combinationKey (pyOptStr y) (pyOptStr d) (pyOptStr ta) (pyOptStr v) (pyOptStr dn))
  | _, _, _, _, _ => none

/-- `current_task` written by a save: the record's own `current` dict, all
five keys present (line 181 of src/property_scraper.py). -/
def Current.toLease (c : Current) : LeaseTask :=
  ⟨some c.year, some c.district, some c.taluka, some c.village, some c.doc_number⟩

/-! ### Python dict operations on association lists -/

/-- The keys of a dict, in insertion order. -/
def keys {β : Type} (d : List (String × β)) : List String :=
  d.map Prod.fst

/-- Python `d[k] = v`: update an existing key in place, otherwise append. -/
def dictSet {β : Type} (d : List (String × β)) (k : String) (v : β) :
    List (String × β) :=
  if k ∈ keys d then d.map (fun p => if p.1 = k then (k, v) else p)
  else d ++ [(k, v)]

/-- Python `for k, v in e.items(): d[k] = v` (lines 120-121 of
src/github_storage.py). -/
def dictUpdate {β : Type} (d e : List (String × β)) : List (String × β) :=
  e.foldl (fun acc p => dictSet acc p.1 p.2) d

/-- Python `d[k]` as a lookup (first entry with the key). -/
def dlookup {β : Type} (k : String) : List (String × β) → Option β
  | [] => none
  | p :: ps => if p.1 = k then some p.2 else dlookup k ps

/-! ### GitHubStorage.merge_progress_files (src/github_storage.py 89-124) -/

/-- The completed-list merge loop (lines 111-113 of src/github_storage.py):
each local task not already present is appended to the remote's list. -/
def mergeCompleted (localC remoteC : List String) : List String :=
  localC.foldl (fun acc task => if task ∈ acc then acc else acc ++ [task]) remoteC

/-- Value returned by `GitHubStorage.merge_progress_files` (lines 89-124 of
src/github_storage.py).  `remote_progress = none` models a falsy remote
(`if not remote_progress: return local_progress`).  Otherwise the merged
record starts as a copy of the remote; if the local record has a `completed`
key, local tasks not already present are appended (to `[]` when the remote
lacks the key); if the local record has a `vm_tasks` key, its entries are
written over the remote's (an empty dict when the remote lacks the key). -/
def merge_progress_files (local_progress : Progress)
    (remote_progress : Option Progress) : Progress :=
  match remote_progress with
  | none => local_progress
  | some remote =>
    let m1 : Progress :=
      match local_progress.completed with
      | none => remote
      | some lc => { remote with completed := some (mergeCompleted lc (remote.completed.getD [])) }
    match local_progress.vm_tasks with
    | none => m1
    | some lv => { m1 with vm_tasks := some (dictUpdate (m1.vm_tasks.getD []) lv) }

/-- State of the remote record after `merge_progress_files` ran on it.  The
source takes a shallow copy (`merged_progress = remote_progress.copy()`,
line 104 of src/github_storage.py), so `merged_progress['completed']` and
`merged_progress['vm_tasks']` alias the remote's own list and dict whenever
the remote has those keys: the appends of lines 111-113 and the writes of
lines 120-121 then mutate the remote record in place.  When the remote lacks
a key, a fresh container is installed in the copy only and the remote is
untouched on that field. -/
def merge_remote_after (local_progress remote : Progress) : Progress :=
  let r1 : Progress :=
    match local_progress.completed, remote.completed with
    | some lc, some rc => { remote with completed := some (mergeCompleted lc rc) }
    | _, _ => remote
  match local_progress.vm_tasks, remote.vm_tasks with
  | some lv, some rv => { r1 with vm_tasks := some (dictUpdate rv lv) }
  | _, _ => r1

/-! ### Loading progress (src/property_scraper.py 118-171) -/

/-- Outcome of the S3 `get_object` call: the object, a `NoSuchKey` error, or
any other exception. -/
inductive S3Fetch
  | ok (p : Progress)
  | noSuchKey
  | err
deriving DecidableEq

/-- `PropertyScraper._load_progress_from_s3` (lines 148-171): a fetched
object is parsed and returned; `NoSuchKey` is caught and a fresh empty
record returned; any other exception is re-raised. -/
def load_progress_from_s3 : S3Fetch → Except String Progress
  | .ok p => .ok p
  | .noSuchKey => .ok freshProgress
  | .err => .error "S3 error"

/-- `PropertyScraper._load_progress` (lines 118-146).  With cloud storage
enabled and type `s3`, the S3 result is returned directly (note that a
missing S3 object already became a fresh record inside the S3 loader); an S3
exception falls through to the local file; with cloud storage disabled, or a
cloud type other than `s3`, the local file is used; a missing local file
yields a fresh empty record. -/
def load_progress (use_cloud_storage : Bool) (cloud_storage_type : String)
    (s3 : S3Fetch) (localFile : Option Progress) : Progress :=
  let fromLocal : Progress :=
    match localFile with
    | some p => p
    | none => freshProgress
  if use_cloud_storage then
    if cloud_storage_type = "s3" then
      match load_progress_from_s3 s3 with
      | .ok p => p
      | .error _ => fromLocal
    else fromLocal
  else fromLocal

/-! ### Saving progress (src/property_scraper.py 173-231) -/

/-- Observable effects of a save, in program order. -/
inductive SaveEvent
  | writeLocal (p : Progress)
  | putRemote (p : Progress)
  | remoteSaveFailed
deriving DecidableEq

/-- Lines 176-182 of `_save_progress`: ensure `vm_tasks` exists, then write
this worker's lease entry `{last_active: now, current_task: current}`. -/
def leaseOverlay (p : Progress) (vm_id : String) (now : Int) : Progress :=
  let lease : VmInfo := ⟨some now, some p.current.toLease⟩
  { p with vm_tasks := some (dictSet (p.vm_tasks.getD []) vm_id lease) }

/-- The merge block of `_save_progress_to_s3` (lines 200-219): refetch the
remote, append this record's completed tasks to it, and overwrite the
remote's lease entry for this worker with this record's own.  Any exception
inside the block (an S3 error, or a `KeyError` on a missing `completed` key
or a missing own lease entry) is caught and the unmerged local record used.
The remote's `completed` key is only read when this record's completed list
is non-empty (the reads happen inside the loop body), so an empty local list
never raises even against a remote lacking the key. -/
def s3MergedProgress (selfP : Progress) (vm_id : String) (s3 : S3Fetch) :
    Progress :=
  match load_progress_from_s3 s3 with
  | .error _ => selfP
  | .ok latest =>
    match selfP.completed with
    | none => selfP
    | some sc =>
      let withVm : Progress → Progress := fun base =>
        match dlookup vm_id (selfP.vm_tasks.getD []) with
        | none => selfP
        | some info =>
            { base with vm_tasks := some (dictSet (base.vm_tasks.getD []) vm_id info) }
      match latest.completed with
      | none =>
          match sc with
          | [] => withVm latest
          | _ :: _ => selfP
      | some lc => withVm { latest with completed := some (mergeCompleted sc lc) }

/-- `PropertyScraper._save_progress_to_s3` (lines 197-231): compute the
merged record, then `put_object`.  A failing put raises, re-raised to the
caller; the event list records what was written. -/
def save_progress_to_s3 (selfP : Progress) (vm_id : String) (s3 : S3Fetch)
    (putFails : Bool) : List SaveEvent × Bool :=
  let merged := s3MergedProgress selfP vm_id s3
  if putFails then ([], false) else ([SaveEvent.putRemote merged], true)

/-- `PropertyScraper._save_progress` (lines 173-195): overlay this worker's
lease, write the local file, then, when cloud storage is enabled with type
`s3`, attempt the S3 save; an exception from the S3 save is caught and
logged (`remoteSaveFailed`), never re-raised.  Returns the updated record
and the ordered effect list. -/
def save_progress (p : Progress) (vm_id : String) (now : Int)
    (use_cloud_storage : Bool) (cloud_storage_type : String) (s3 : S3Fetch)
    (putFails : Bool) : Progress × List SaveEvent :=
  let p2 := leaseOverlay p vm_id now
  let localEvents := [SaveEvent.writeLocal p2]
  if use_cloud_storage then
    if cloud_storage_type = "s3" then
      let r := save_progress_to_s3 p2 vm_id s3 putFails
      (p2, localEvents ++ r.1 ++ (if r.2 then [] else [SaveEvent.remoteSaveFailed]))
    else (p2, localEvents)
  else (p2, localEvents)

/-! ### The other-VM in-progress check (src/property_scraper.py 1406-1456) -/

/-- The lease staleness timeout: `timedelta(minutes=30)` (line 1426), with
timestamps in minutes. -/
def vmTimeout : Int := 30

/-- `PropertyScraper._is_task_in_progress_by_other_vm` (lines 1406-1456).
Returns true iff cloud storage is enabled, the record has a `vm_tasks` key,
and some entry of another worker has a parseable `last_active` within the
timeout and a `current_task` whose five fields render to `combination_key`.
Entries of this worker, stale entries, and entries whose timestamp or task
cannot be read are skipped. -/
def is_task_in_progress_by_other_vm (use_cloud_storage : Bool)
    (vm_id : String) (progress : Progress) (combination_key : String)
    (current_time : Int) : Bool :=
  if !use_cloud_storage then false
  else
    match progress.vm_tasks with
    | none => false
    | some tasks =>
      tasks.any fun p =>
        if p.1 = vm_id then false
        else
          match p.2.last_active with
          | none => false
          | some la =>
            if current_time - la > vmTimeout then false
            else
              match p.2.current_task with
              | none => false
              | some t =>
                match leaseCombination t with
                | none => false
                | some c => c = combination_key

/-! ### Task selection (src/property_scraper.py 1458-1506) -/

/-- A candidate `(year, district, taluka, village, doc_number)` tuple. -/
abbrev TaskTuple := String × String × String × String × String

/-- The combination key of a candidate tuple (line 1499). -/
def tupleKey (c : TaskTuple) : String :=
  combinationKey c.1 c.2.1 c.2.2.1 c.2.2.2.1 c.2.2.2.2

/-- The dropdown option lists the discovery loop obtains from
`_get_dropdown_options` — an external collaborator (the browser, or the
static demo lists when no driver is passed).  Each level's call takes only
the level name, so the lists are fixed across loop iterations. -/
structure DropdownEnv where
  years : List String
  districts : List String
  talukas : List String
  villages : List String

/-- `range(10)` document numbers as rendered in the combination key
(line 1498). -/
def docNumbers : List String := (List.range 10).map toString

/-- The candidate tuples of the discovery loop (lines 1491-1503), in the
order of the nested loops. -/
def allCombos (env : DropdownEnv) : List TaskTuple :=
  env.years.flatMap fun y =>
    env.districts.flatMap fun d =>
      env.talukas.flatMap fun t =>
        env.villages.flatMap fun v =>
          docNumbers.map fun dn => (y, d, t, v, dn)

/-- The body of the discovery loop: return the first candidate whose key is
neither in `completed` nor claimed by another worker.  Reading `completed`
raises a `KeyError` when the key is absent (line 1501). -/
def firstAvailable (completed : Option (List String)) (busy : String → Bool) :
    List TaskTuple → Except String (Option TaskTuple)
  | [] => .ok none
  | c :: rest =>
    match completed with
    | none => .error "KeyError: completed"
    | some cs =>
      if tupleKey c ∉ cs ∧ busy (tupleKey c) = false then .ok (some c)
      else firstAvailable completed busy rest

/-- `PropertyScraper._find_available_task` (lines 1458-1506).  If the five
fields of `current` are all non-null, and the key they form is neither in
`completed` nor in progress on another worker, that tuple is returned
directly; otherwise the discovery loop runs over the dropdown options. -/
def find_available_task (env : DropdownEnv) (use_cloud_storage : Bool)
    (vm_id : String) (progress : Progress) (now : Int) :
    Except String (Option TaskTuple) :=
  let busy : String → Bool := fun key =>
    is_task_in_progress_by_other_vm use_cloud_storage vm_id progress key now
  let discover := firstAvailable progress.completed busy (allCombos env)
  match progress.current.year, progress.current.district,
      progress.current.taluka, progress.current.village,
      progress.current.doc_number with
  | some y, some d, some t, some v, some dn =>
    match progress.completed with
    | none => .error "KeyError: completed"
    | some cs =>
      let key := combinationKey y d t v dn
      if key ∉ cs ∧ busy key = false then .ok (some (y, d, t, v, dn))
      else discover
  | _, _, _, _, _ => discover

/-! ### Driver setup and demo mode (src/property_scraper.py 431-476,
1646-1731, 2100-2130) -/

/-- How a run proceeds after `_setup_driver`. -/
inductive RunMode
  | browser
  | demo
deriving DecidableEq

/-- `PropertyScraper._setup_driver` (lines 431-476): a construction failure
is caught, logged ("Falling back to demo mode") and `None` returned. -/
def setup_driver (construction_fails : Bool) : Option Unit :=
  if construction_fails then none else some ()

/-- Lines 2124-2130 of `PropertyScraper.run`: a `None` driver sends the run
into `run_demo_mode` instead of aborting. -/
def run_dispatch (construction_fails : Bool) : RunMode :=
  match setup_driver construction_fails with
  | none => RunMode.demo
  | some _ => RunMode.browser

/-- The random draws one iteration of the `_simulate_download_pdfs` loop
consumes: whether the simulated tab opens (`random.random() < 0.8`) and the
fabricated registration number (`random.randint(1000, 9999)`). -/
structure DemoDraw where
  opens : Bool
  doc_reg_number : Nat
deriving DecidableEq

/-- The fabricated file name `f"{doc_reg_number}-{year}-IndexII_copy.pdf"`
(line 1688). -/
def pdfName (doc_reg_number : Nat) (year : String) : String :=
  toString doc_reg_number ++ "-" ++ year ++ "-IndexII_copy.pdf"

/-- `PropertyScraper._simulate_download_pdfs` (lines 1646-1731): at most 5
iterations; each successful draw writes a file with a fabricated name (a
copied template or a generated PDF) and increments the count.  Returns the
fabricated file names and the count. -/
def simulate_download_pdfs (year : String) (draws : List DemoDraw) :
    List String × Nat :=
  let files := ((draws.take 5).filter (·.opens)).map
    (fun d => pdfName d.doc_reg_number year)
  (files, files.length)

/-! ### Helper predicates and concrete records used by the theorems -/

/-- A lease's `current_task` is readable and renders to `key`. -/
def leaseMatches (info : VmInfo) (key : String) : Bool :=
  match info.current_task with
  | none => false
  | some t => leaseCombination t = some key

/-- A lease carries a parseable timestamp more than `vmTimeout` minutes old. -/
def leaseStale (info : VmInfo) (now : Int) : Bool :=
  match info.last_active with
  | none => false
  | some la => now - la > vmTimeout

/-- Recognizes the local-file write among a save's effects. -/
def isLocalWrite : SaveEvent → Bool
  | .writeLocal _ => true
  | _ => false

/-- A fully populated lease task rendering to `fullKey`. -/
def fullLease : LeaseTask :=
  ⟨some (some "2024"), some (some "Pune"), some (some "Haveli"),
   some (some "Hadapsar"), some (some "3")⟩

/-- The combination key of `fullLease`. -/
def fullKey : String := "2024_Pune_Haveli_Hadapsar_3"

/-- Local record of the spec's merge scenario (`completed=["B","C"]`). -/
def mergeLocalEx : Progress := { freshProgress with completed := some ["B", "C"] }

/-- Remote record of the spec's merge scenario (`completed=["A","B"]`). -/
def mergeRemoteEx : Progress := { freshProgress with completed := some ["A", "B"] }

/-- Local record for the shallow-copy mutation counterexample. -/
def mutLocalEx : Progress := { freshProgress with completed := some ["B"] }

/-- Remote record for the shallow-copy mutation counterexample. -/
def mutRemoteEx : Progress := { freshProgress with completed := some ["A"] }

/-- The spec's resume scenario: `current` and `completed` name the same key. -/
def resumeEx : Progress :=
  { last_run := none
    completed := some ["2024_Pune_Haveli_Hadapsar_3"]
    current := ⟨some "2024", some "Pune", some "Haveli", some "Hadapsar", some "3"⟩
    vm_tasks := some [] }

/-- A one-option-per-level dropdown environment for the resume scenario. -/
def resumeEnv : DropdownEnv :=
  ⟨["2024"], ["Pune"], ["Haveli"], ["Hadapsar"]⟩

/-- A record whose only lease is a stale (35-minute-old at `now = 100`)
claim by worker `w1` on `fullKey`. -/
def staleLeaseEx : Progress :=
  { freshProgress with vm_tasks := some [("w1", ⟨some 65, some fullLease⟩)] }

/-- A local file with one completed task, for the load-fallback
counterexample. -/
def localFileEx : Progress := { freshProgress with completed := some ["A"] }

/-- Records with distinct leases for the idempotence witness. -/
def idemLocalEx : Progress :=
  { last_run := some "2024-01-01"
    completed := some ["B", "C"]
    current := ⟨none, none, none, none, none⟩
    vm_tasks := some [("w1", ⟨some 10, some fullLease⟩)] }

/-- Remote counterpart of `idemLocalEx`. -/
def idemRemoteEx : Progress :=
  { last_run := some "2024-01-02"
    completed := some ["A", "B"]
    current := ⟨none, none, none, none, none⟩
    vm_tasks := some [("w2", ⟨some 20, none⟩)] }

/-- One successful demo draw, fabricating `6177-2024-IndexII_copy.pdf`. -/
def demoDrawEx : List DemoDraw := [⟨true, 6177⟩]

/-! ### The in-progress check over raw JSON lease values
(src/property_scraper.py 1428-1456)

`VmInfo` covers the lease shapes the program itself writes (a dict whose
`last_active` is a string).  A progress file is arbitrary JSON, though, and
the loop's first `try` (lines 1434-1442) catches only
`(ValueError, KeyError)`: when `vm_info['last_active']` holds a non-string
value (JSON `null` or a number), `datetime.fromisoformat` raises `TypeError`,
and when `vm_info` itself is not a dict, the subscript raises `TypeError` —
neither is caught, so `_is_task_in_progress_by_other_vm` propagates the
exception.  The raw model below represents those values too, with
`Except String Bool` for the possibly-raising loop. -/

/-- The raw JSON value found under a lease's `last_active` key. -/
inductive RawLastActive
  /-- Key absent: `KeyError`, caught at line 1440, lease skipped. -/
  | absent
  /-- An ISO string parsing to this timestamp (minutes). -/
  | strParse (t : Int)
  /-- A string `datetime.fromisoformat` rejects: `ValueError`, caught at
  line 1440, lease skipped. -/
  | strBad
  /-- A non-string value (JSON `null` or a number): `TypeError` from
  `datetime.fromisoformat`, not caught — the check raises. -/
  | nonStr
deriving DecidableEq

/-- The raw JSON value mapped to a worker id in `vm_tasks`. -/
inductive RawVmInfo
  /-- A dict with (possibly absent) `last_active` and `current_task` keys;
  an absent or non-dict `current_task` is `none` (`KeyError`/`TypeError`,
  both caught at line 1452). -/
  | dict (last_active : RawLastActive) (current_task : Option LeaseTask)
  /-- Not a dict: `vm_info['last_active']` raises `TypeError`, not caught —
  the check raises. -/
  | nonDict
deriving DecidableEq

/-- A lease value on which the loop cannot raise: a dict whose
`last_active` is not a non-string value. -/
def rawBenign : RawVmInfo → Bool
  | .nonDict => false
  | .dict la _ =>
    match la with
    | .nonStr => false
    | _ => true

/-- The `for vm_id, vm_info in ...` loop of lines 1428-1454 over raw lease
values, in order: skip this worker's own entry; subscripting a non-dict
entry raises; an absent or unparseable-string `last_active` is caught and
skipped; a non-string `last_active` raises; a stale timestamp is skipped; an
unreadable or incomplete `current_task` is caught and skipped; a rendered
key equal to `combination_key` returns `True`; otherwise continue. -/
def inProgressLoop (vm_id key : String) (now : Int) :
    List (String × RawVmInfo) → Except String Bool
  | [] => .ok false
  | (w, info) :: rest =>
    if w = vm_id then inProgressLoop vm_id key now rest
    else
      match info with
      | .nonDict => .error "TypeError"
      | .dict la ct =>
        match la with
        | .absent => inProgressLoop vm_id key now rest
        | .strBad => inProgressLoop vm_id key now rest
        | .nonStr => .error "TypeError"
        | .strParse t =>
          if now - t > vmTimeout then inProgressLoop vm_id key now rest
          else
            match ct with
            | none => inProgressLoop vm_id key now rest
            | some task =>
              match leaseCombination task with
              | none => inProgressLoop vm_id key now rest
              | some c =>
                if c = key then .ok true else inProgressLoop vm_id key now rest

/-- `PropertyScraper._is_task_in_progress_by_other_vm` (lines 1406-1456)
over raw JSON lease values: `False` without cloud storage or without a
`vm_tasks` key, otherwise the loop — which can raise. -/
def is_task_in_progress_raw (use_cloud_storage : Bool) (vm_id : String)
    (vm_tasks : Option (List (String × RawVmInfo))) (combination_key : String)
    (current_time : Int) : Except String Bool :=
  if !use_cloud_storage then .ok false
  else
    match vm_tasks with
    | none => .ok false
    | some tasks => inProgressLoop vm_id combination_key current_time tasks

/-- Benign raw `vm_tasks` for the fail-open witness: one lease with an
unparseable string timestamp and one live matching lease. -/
def rawBenignEx : List (String × RawVmInfo) :=
  [("w1", .dict .strBad none), ("w3", .dict (.strParse 90) (some fullLease))]

/-! ## Lemmas about the completed-list merge loop -/

theorem mergeCompleted_of_mem (l acc : List String) (h : ∀ x ∈ l, x ∈ acc) :
    mergeCompleted l acc = acc := by
  induction l with
  | nil => rfl
  | cons x xs ih =>
    have hx : x ∈ acc := h x (by simp)
    simp only [mergeCompleted, List.foldl_cons, if_pos hx]
    simpa [mergeCompleted] using ih (fun y hy => h y (by simp [hy]))

theorem mergeCompleted_eq_append (l : List String) (hl : l.Nodup) :
    ∀ acc : List String,
      mergeCompleted l acc = acc ++ l.filter (fun x => x ∉ acc) := by
  induction l with
  | nil => intro acc; simp [mergeCompleted]
  | cons x xs ih =>
    intro acc
    obtain ⟨hx1, hx2⟩ := List.nodup_cons.mp hl
    by_cases hx : x ∈ acc
    · simp only [mergeCompleted, List.foldl_cons, if_pos hx]
      have := ih hx2 acc
      simp only [mergeCompleted] at this
      rw [this, List.filter_cons]
      simp [hx]
    · simp only [mergeCompleted, List.foldl_cons, if_neg hx]
      have := ih hx2 (acc ++ [x])
      simp only [mergeCompleted] at this
      rw [this, List.filter_cons]
      have hcong : xs.filter (fun y => decide (y ∉ acc ++ [x]))
          = xs.filter (fun y => decide (y ∉ acc)) := by
        apply List.filter_congr
        intro y hy
        have hyx : y ≠ x := fun h => hx1 (h ▸ hy)
        simp [List.mem_append, hyx]
      simp only [hcong]
      simp [hx, List.append_assoc]

theorem mergeCompleted_decomp (l : List String) :
    ∀ acc : List String, ∃ ex : List String,
      mergeCompleted l acc = acc ++ ex ∧ ex.Nodup ∧ ∀ x ∈ ex, x ∉ acc := by
  induction l with
  | nil => intro acc; exact ⟨[], by simp [mergeCompleted], List.nodup_nil, by simp⟩
  | cons x xs ih =>
    intro acc
    by_cases hx : x ∈ acc
    · obtain ⟨ex, h1, h2, h3⟩ := ih acc
      refine ⟨ex, ?_, h2, h3⟩
      simp only [mergeCompleted, List.foldl_cons, if_pos hx]
      simpa [mergeCompleted] using h1
    · obtain ⟨ex, h1, h2, h3⟩ := ih (acc ++ [x])
      refine ⟨x :: ex, ?_, ?_, ?_⟩
      · simp only [mergeCompleted, List.foldl_cons, if_neg hx]
        simp only [mergeCompleted] at h1
        rw [h1]
        simp [List.append_assoc]
      · refine List.nodup_cons.mpr ⟨fun hmem => ?_, h2⟩
        have := h3 x hmem
        simp [List.mem_append] at this
      · intro y hy
        rcases List.mem_cons.mp hy with rfl | hy'
        · exact hx
        · have := h3 y hy'
          simp only [List.mem_append] at this
          exact fun hya => this (Or.inl hya)

theorem mergeCompleted_idem (a b : List String) :
    mergeCompleted (mergeCompleted a b) b = mergeCompleted a b := by
  obtain ⟨ex, h1, h2, h3⟩ := mergeCompleted_decomp a b
  rw [h1]
  have hsplit : mergeCompleted (b ++ ex) b = mergeCompleted ex (mergeCompleted b b) := by
    simp [mergeCompleted, List.foldl_append]
  have hbb : mergeCompleted b b = b := mergeCompleted_of_mem b b (fun _ h => h)
  rw [hsplit, hbb, mergeCompleted_eq_append ex h2 b]
  have : ex.filter (fun x => decide (x ∉ b)) = ex :=
    List.filter_eq_self.mpr (fun y hy => by simpa using h3 y hy)
  rw [this]

/-! ## Lemmas about the dict operations -/

theorem dlookup_cons {β : Type} (k' k : String) (v : β) (e : List (String × β)) :
    dlookup k ((k', v) :: e) = if k' = k then some v else dlookup k e := rfl

theorem keys_cons {β : Type} (p : String × β) (d : List (String × β)) :
    keys (p :: d) = p.1 :: keys d := rfl

theorem keys_append {β : Type} (a b : List (String × β)) :
    keys (a ++ b) = keys a ++ keys b := by
  simp [keys]

theorem keys_dictSet {β : Type} (d : List (String × β)) (k : String) (v : β) :
    keys (dictSet d k v) = if k ∈ keys d then keys d else keys d ++ [k] := by
  unfold dictSet
  by_cases hk : k ∈ keys d
  · rw [if_pos hk, if_pos hk]
    simp only [keys, List.map_map]
    refine List.map_congr_left ?_
    intro p _
    by_cases hp : p.1 = k <;> simp [Function.comp, hp]
  · rw [if_neg hk, if_neg hk]
    simp [keys]

theorem dlookup_of_not_mem {β : Type} (k : String) (e : List (String × β))
    (h : k ∉ keys e) : dlookup k e = none := by
  induction e with
  | nil => rfl
  | cons p ps ih =>
    have hpk : p.1 ≠ k := fun hpk => h (by simp [keys_cons, hpk])
    simp only [dlookup, if_neg hpk]
    exact ih (fun hmem => h (by simp [keys_cons, hmem]))

theorem dlookup_append_left {β : Type} (k : String) (a b : List (String × β))
    (h : k ∈ keys a) : dlookup k (a ++ b) = dlookup k a := by
  induction a with
  | nil => simp [keys] at h
  | cons p ps ih =>
    by_cases hpk : p.1 = k
    · simp [dlookup, if_pos hpk]
    · have hks : k ∈ keys ps := by
        rw [keys_cons] at h
        rcases List.mem_cons.mp h with h' | h'
        · exact absurd h'.symm hpk
        · exact h'
      simp only [List.cons_append, dlookup, if_neg hpk]
      exact ih hks

theorem keys_map_self {β γ : Type} (d : List (String × β))
    (w : String × β → γ) :
    keys (d.map (fun q => (q.1, w q))) = keys d := by
  simp [keys, List.map_map]

theorem dlookup_map_self {β γ : Type} (d : List (String × β))
    (w : String × β → γ) (hd : (keys d).Nodup) (p : String × β) (hp : p ∈ d) :
    dlookup p.1 (d.map (fun q => (q.1, w q))) = some (w p) := by
  induction d with
  | nil => simp at hp
  | cons q qs ih =>
    rw [keys_cons] at hd
    have hq1 : q.1 ∉ keys qs := (List.nodup_cons.mp hd).1
    have hqs : (keys qs).Nodup := (List.nodup_cons.mp hd).2
    rcases List.mem_cons.mp hp with rfl | hp'
    · simp [dlookup]
    · have hne : q.1 ≠ p.1 := by
        intro hq
        exact hq1 (hq ▸ List.mem_map.mpr ⟨p, hp', rfl⟩)
      simp only [List.map_cons, dlookup, if_neg hne]
      exact ih hqs hp'

theorem dictUpdate_eq {β : Type} (e : List (String × β))
    (he : (keys e).Nodup) :
    ∀ d : List (String × β),
      dictUpdate d e
        = d.map (fun p => (p.1, (dlookup p.1 e).getD p.2))
          ++ e.filter (fun q => q.1 ∉ keys d) := by
  induction e with
  | nil =>
    intro d
    show dictUpdate d [] = d.map (fun p => p) ++ []
    simp [dictUpdate]
  | cons kv e' ih =>
    intro d
    obtain ⟨k, v⟩ := kv
    rw [keys_cons] at he
    have hk : k ∉ keys e' := (List.nodup_cons.mp he).1
    have he' : (keys e').Nodup := (List.nodup_cons.mp he).2
    have hstep : dictUpdate d ((k, v) :: e') = dictUpdate (dictSet d k v) e' := by
      simp [dictUpdate]
    rw [hstep, ih he']
    by_cases hkd : k ∈ keys d
    · have hkeys : keys (dictSet d k v) = keys d := by
        rw [keys_dictSet, if_pos hkd]
      have hset : dictSet d k v = d.map (fun p => if p.1 = k then (k, v) else p) := by
        simp [dictSet, if_pos hkd]
      rw [hkeys, hset, List.map_map]
      have hmap : d.map ((fun p => (p.1, (dlookup p.1 e').getD p.2))
            ∘ (fun p => if p.1 = k then (k, v) else p))
          = d.map (fun p => (p.1, (dlookup p.1 ((k, v) :: e')).getD p.2)) := by
        refine List.map_congr_left ?_
        rintro ⟨p1, p2⟩ _
        by_cases hpk : p1 = k
        · subst hpk
          simp [dlookup_cons, dlookup_of_not_mem p1 e' hk]
        · have hkp : k ≠ p1 := fun h => hpk h.symm
          simp [dlookup_cons, hpk, if_neg hkp]
      have hfil : ((k, v) :: e').filter (fun q => q.1 ∉ keys d)
          = e'.filter (fun q => q.1 ∉ keys d) := by
        rw [List.filter_cons]
        simp [hkd]
      rw [hmap, hfil]
    · have hkeys : keys (dictSet d k v) = keys d ++ [k] := by
        rw [keys_dictSet, if_neg hkd]
      have hset : dictSet d k v = d ++ [(k, v)] := by
        simp [dictSet, if_neg hkd]
      rw [hkeys, hset, List.map_append]
      have hhead : ([(k, v)] : List (String × β)).map
            (fun p => (p.1, (dlookup p.1 e').getD p.2)) = [(k, v)] := by
        simp [dlookup_of_not_mem k e' hk]
      have hfil : e'.filter (fun q => decide (q.1 ∉ keys d ++ [k]))
          = e'.filter (fun q => decide (q.1 ∉ keys d)) := by
        refine List.filter_congr ?_
        intro q hq
        have hqk : q.1 ≠ k := by
          intro hqk
          exact hk (hqk ▸ List.mem_map.mpr ⟨q, hq, rfl⟩)
        simp [List.mem_append, hqk]
      have hmap : d.map (fun p => (p.1, (dlookup p.1 e').getD p.2))
          = d.map (fun p => (p.1, (dlookup p.1 ((k, v) :: e')).getD p.2)) := by
        refine List.map_congr_left ?_
        intro p hp
        have hpk : k ≠ p.1 := by
          intro hpk
          exact hkd (hpk ▸ List.mem_map.mpr ⟨p, hp, rfl⟩)
        simp only [dlookup_cons, if_neg hpk]
      have hfil2 : ((k, v) :: e').filter (fun q => q.1 ∉ keys d)
          = (k, v) :: e'.filter (fun q => q.1 ∉ keys d) := by
        rw [List.filter_cons]
        simp [hkd]
      rw [hhead, hfil, hmap, hfil2]
      simp [List.append_assoc]

theorem dictUpdate_idem {β : Type} (d e : List (String × β))
    (hd : (keys d).Nodup) (he : (keys e).Nodup) :
    dictUpdate d (dictUpdate d e) = dictUpdate d e := by
  have hM := dictUpdate_eq e he d
  set P : List (String × β) := d.map (fun p => (p.1, (dlookup p.1 e).getD p.2)) with hPdef
  set N : List (String × β) := e.filter (fun q => q.1 ∉ keys d) with hNdef
  have hkeysP : keys P = keys d := keys_map_self d _
  have hNsub : N.Sublist e := List.filter_sublist e
  have hkeysN : (keys N).Nodup := by
    have hsub : (keys N).Sublist (keys e) := List.Sublist.map Prod.fst hNsub
    exact List.Nodup.sublist hsub he
  have hMnodup : (keys (P ++ N)).Nodup := by
    rw [keys_append]
    refine List.Nodup.append (by rw [hkeysP]; exact hd) hkeysN ?_
    intro x hxP hxN
    obtain ⟨q, hq, rfl⟩ := List.mem_map.mp hxN
    have hq2 : decide (q.1 ∉ keys d) = true := (List.mem_filter.mp hq).2
    rw [decide_eq_true_eq] at hq2
    rw [hkeysP] at hxP
    exact hq2 hxP
  rw [hM]
  rw [dictUpdate_eq (P ++ N) hMnodup d]
  have hfilter : (P ++ N).filter (fun q => q.1 ∉ keys d) = N := by
    rw [List.filter_append]
    have h1 : P.filter (fun q => q.1 ∉ keys d) = [] := by
      refine List.filter_eq_nil_iff.mpr ?_
      intro q hq
      obtain ⟨p, hp, rfl⟩ := List.mem_map.mp hq
      rw [decide_eq_true_eq]
      exact not_not_intro (List.mem_map.mpr ⟨p, hp, rfl⟩)
    have h2 : N.filter (fun q => q.1 ∉ keys d) = N := by
      refine List.filter_eq_self.mpr ?_
      intro q hq
      exact (List.mem_filter.mp hq).2
    rw [h1, h2, List.nil_append]
  have hmap : d.map (fun p => (p.1, (dlookup p.1 (P ++ N)).getD p.2)) = P := by
    rw [hPdef]
    refine List.map_congr_left ?_
    intro p hp
    have hkeyP : p.1 ∈ keys P := by
      rw [hkeysP]
      exact List.mem_map.mpr ⟨p, hp, rfl⟩
    rw [dlookup_append_left _ _ _ hkeyP, hPdef, dlookup_map_self d _ hd p hp]
    rfl
  rw [hfilter, hmap]

theorem dictUpdate_self {β : Type} (d : List (String × β))
    (hd : (keys d).Nodup) : dictUpdate d d = d := by
  have h := dictUpdate_idem d [] hd List.nodup_nil
  simpa [dictUpdate] using h

/-! ## Field equations of the merge -/

theorem merge_last_run_eq (A B : Progress) :
    (merge_progress_files A (some B)).last_run = B.last_run := by
  simp only [merge_progress_files]
  cases A.completed <;> cases A.vm_tasks <;> rfl

theorem merge_current_eq (A B : Progress) :
    (merge_progress_files A (some B)).current = B.current := by
  simp only [merge_progress_files]
  cases A.completed <;> cases A.vm_tasks <;> rfl

theorem merge_completed_none (A B : Progress) (h : A.completed = none) :
    (merge_progress_files A (some B)).completed = B.completed := by
  simp only [merge_progress_files, h]
  cases A.vm_tasks <;> rfl

theorem merge_completed_some (A B : Progress) (lc : List String)
    (h : A.completed = some lc) :
    (merge_progress_files A (some B)).completed
      = some (mergeCompleted lc (B.completed.getD [])) := by
  simp only [merge_progress_files, h]
  cases A.vm_tasks <;> rfl

theorem merge_vm_none (A B : Progress) (h : A.vm_tasks = none) :
    (merge_progress_files A (some B)).vm_tasks = B.vm_tasks := by
  simp only [merge_progress_files, h]
  cases A.completed <;> rfl

theorem merge_vm_some (A B : Progress) (lv : List (String × VmInfo))
    (h : A.vm_tasks = some lv) :
    (merge_progress_files A (some B)).vm_tasks
      = some (dictUpdate (B.vm_tasks.getD []) lv) := by
  simp only [merge_progress_files, h]
  cases A.completed <;> rfl

theorem progress_ext (p q : Progress) (h1 : p.last_run = q.last_run)
    (h2 : p.completed = q.completed) (h3 : p.current = q.current)
    (h4 : p.vm_tasks = q.vm_tasks) : p = q := by
  cases p
  cases q
  simp_all

/-! ## Claim theorems -/

/-- C1: for progress records `A` (local) and `B` (remote) with duplicate-free
completed lists, the completed list of `merge(A, B)` is exactly `B`'s entries
in their original order followed by the elements of `A` not already present,
in `A`'s order; it is duplicate-free and contains every element of both
lists. -/
theorem merge_completed_union_order (A B : Progress) (la lb : List String)
    (hA : A.completed = some la) (hB : B.completed = some lb)
    (hla : la.Nodup) (hlb : lb.Nodup) :
    (merge_progress_files A (some B)).completed
        = some (lb ++ la.filter (fun x => x ∉ lb))
      ∧ (lb ++ la.filter (fun x => x ∉ lb)).Nodup
      ∧ ∀ x, x ∈ la ∨ x ∈ lb → x ∈ lb ++ la.filter (fun x => x ∉ lb) := by
  refine ⟨?_, ?_, ?_⟩
  · have hcomp : (merge_progress_files A (some B)).completed
        = some (mergeCompleted la lb) := by
      simp only [merge_progress_files, hA, hB]
      cases A.vm_tasks <;> simp
    rw [hcomp, mergeCompleted_eq_append la hla lb]
  · refine List.Nodup.append hlb (List.Nodup.filter _ hla) ?_
    intro x hxb hxf
    have := List.of_mem_filter hxf
    simp at this
    exact this hxb
  · intro x hx
    by_cases hxb : x ∈ lb
    · exact List.mem_append_left _ hxb
    · rcases hx with hxa | hxb'
      · exact List.mem_append_right _ (List.mem_filter.mpr ⟨hxa, by simpa using hxb⟩)
      · exact absurd hxb' hxb

/-- C6: for progress records `A` and `B` whose worker-lease maps have
duplicate-free keys (as Python dicts do), re-merging against the same remote
is idempotent: `merge(merge(A,B), B) = merge(A,B)`; in particular no
completed entry is duplicated by the second merge. -/
theorem merge_progress_files_idem (A B : Progress)
    (hA : (keys (A.vm_tasks.getD [])).Nodup)
    (hB : (keys (B.vm_tasks.getD [])).Nodup) :
    merge_progress_files (merge_progress_files A (some B)) (some B)
      = merge_progress_files A (some B) := by
  apply progress_ext
  · rw [merge_last_run_eq, merge_last_run_eq]
  · rcases hac : A.completed with _ | la
    · have hMc := merge_completed_none A B hac
      rcases hbc : B.completed with _ | lb
      · rw [merge_completed_none (merge_progress_files A (some B)) B
            (by rw [hMc, hbc]), hMc]
      · rw [merge_completed_some (merge_progress_files A (some B)) B lb
            (by rw [hMc, hbc]), hMc, hbc]
        exact congrArg some (mergeCompleted_of_mem lb lb (fun _ h => h))
    · have hMc := merge_completed_some A B la hac
      rw [merge_completed_some (merge_progress_files A (some B)) B _ hMc, hMc]
      exact congrArg some (mergeCompleted_idem la (B.completed.getD []))
  · rw [merge_current_eq, merge_current_eq]
  · rcases hav : A.vm_tasks with _ | lav
    · have hMv := merge_vm_none A B hav
      rcases hbv : B.vm_tasks with _ | lbv
      · rw [merge_vm_none (merge_progress_files A (some B)) B
            (by rw [hMv, hbv]), hMv]
      · have hlbv : (keys lbv).Nodup := by
          rw [hbv] at hB
          simpa using hB
        rw [merge_vm_some (merge_progress_files A (some B)) B lbv
            (by rw [hMv, hbv]), hMv, hbv]
        exact congrArg some (dictUpdate_self lbv hlbv)
    · have hMv := merge_vm_some A B lav hav
      have hlav : (keys lav).Nodup := by
        rw [hav] at hA
        simpa using hA
      rw [merge_vm_some (merge_progress_files A (some B)) B _ hMv, hMv]
      exact congrArg some (dictUpdate_idem (B.vm_tasks.getD []) lav hB hlav)

/-- C6 witness: idempotence at two concrete records with distinct completed
lists and leases. -/
theorem merge_progress_files_idem_witness :
    ((keys (idemLocalEx.vm_tasks.getD [])).Nodup
      ∧ (keys (idemRemoteEx.vm_tasks.getD [])).Nodup)
    ∧ merge_progress_files
        (merge_progress_files idemLocalEx (some idemRemoteEx)) (some idemRemoteEx)
      = merge_progress_files idemLocalEx (some idemRemoteEx) :=
  ⟨⟨by decide, by decide⟩,
   merge_progress_files_idem idemLocalEx idemRemoteEx (by decide) (by decide)⟩

/-- C1 witness: the spec's concrete scenario — remote `["A","B"]`, local
`["B","C"]` merge to `["A","B","C"]`, each element once. -/
theorem merge_completed_union_order_witness :
    (mergeLocalEx.completed = some ["B", "C"]
      ∧ mergeRemoteEx.completed = some ["A", "B"]
      ∧ (["B", "C"] : List String).Nodup ∧ (["A", "B"] : List String).Nodup)
    ∧ (merge_progress_files mergeLocalEx (some mergeRemoteEx)).completed
        = some (["A", "B"] ++ ["B", "C"].filter (fun x => x ∉ (["A", "B"] : List String)))
    ∧ ["A", "B"] ++ ["B", "C"].filter (fun x => x ∉ (["A", "B"] : List String))
        = ["A", "B", "C"] :=
  ⟨⟨rfl, rfl, by decide, by decide⟩,
   (merge_completed_union_order mergeLocalEx mergeRemoteEx ["B", "C"] ["A", "B"]
      rfl rfl (by decide) (by decide)).1,
   by decide⟩

/-- C8 counterexample: computing the merge changes the remote record.  With
local completed `["B"]` and remote completed `["A"]`, the shallow copy makes
the append of `"B"` land in the remote's own list: afterwards the remote is
no longer equal to its pre-merge value. -/
theorem merge_mutates_remote_cex :
    merge_remote_after mutLocalEx mutRemoteEx ≠ mutRemoteEx
    ∧ (merge_remote_after mutLocalEx mutRemoteEx).completed = some ["A", "B"]
    ∧ mutRemoteEx.completed = some ["A"] :=
  ⟨by decide, by decide, rfl⟩

/-- C8 amended: the merge result is a function of the two input records and
the local record is left unchanged, but the remote record is mutated in
place: when both records carry the `completed` and `vm_tasks` keys, the
shallow copy makes the remote end up equal to the merged record itself. -/
theorem merge_shallow_copy_mutates_remote (A B : Progress)
    (la lb : List String) (lav lbv : List (String × VmInfo))
    (hc : A.completed = some la) (hrc : B.completed = some lb)
    (hv : A.vm_tasks = some lav) (hrv : B.vm_tasks = some lbv) :
    merge_remote_after A B = merge_progress_files A (some B) := by
  obtain ⟨ar, ac, acur, av⟩ := A
  obtain ⟨br, bc, bcur, bv⟩ := B
  cases hc
  cases hrc
  cases hv
  cases hrv
  rfl

/-- C8 witness: the amended statement at the mutation counterexample's
records. -/
theorem merge_shallow_copy_mutates_remote_witness :
    (mutLocalEx.completed = some ["B"] ∧ mutRemoteEx.completed = some ["A"]
      ∧ mutLocalEx.vm_tasks = some [] ∧ mutRemoteEx.vm_tasks = some [])
    ∧ merge_remote_after mutLocalEx mutRemoteEx
        = merge_progress_files mutLocalEx (some mutRemoteEx) :=
  ⟨⟨rfl, rfl, rfl, rfl⟩,
   merge_shallow_copy_mutates_remote mutLocalEx mutRemoteEx
     ["B"] ["A"] [] [] rfl rfl rfl rfl⟩

/-- C7 counterexample: saving the fresh record with no remote configured and
loading it back does not return the fresh record — the save wrote this
worker's lease entry into `vm_tasks` first. -/
theorem load_after_save_changes_record :
    load_progress false "s3" S3Fetch.err
        (some (save_progress freshProgress "vm1" 0 false "s3" S3Fetch.err false).1)
      ≠ freshProgress := by decide

/-- C7 amended: with no remote configured, `load(save(r))` returns exactly
`r` with this worker's lease (`last_active` = save time, `current_task` =
`r.current`) overlaid into `vm_tasks`; the `completed`, `current` and
`last_run` fields round-trip unchanged. -/
theorem load_after_save_eq (p : Progress) (vm : String) (now : Int)
    (ct ct2 : String) (s3 s32 : S3Fetch) (pf : Bool) :
    load_progress false ct2 s32 (some ((save_progress p vm now false ct s3 pf).1))
        = leaseOverlay p vm now
      ∧ (leaseOverlay p vm now).completed = p.completed
      ∧ (leaseOverlay p vm now).current = p.current
      ∧ (leaseOverlay p vm now).last_run = p.last_run :=
  ⟨rfl, rfl, rfl, rfl⟩

/-- C4 counterexample: with cloud storage enabled, a missing S3 object does
not fall back to the existing local file — `_load_progress_from_s3` catches
`NoSuchKey` and returns a fresh empty record, which `_load_progress` passes
straight through, ignoring the local file's data. -/
theorem load_noSuchKey_ignores_local :
    load_progress true "s3" S3Fetch.noSuchKey (some localFileEx) = freshProgress
    ∧ load_progress true "s3" S3Fetch.noSuchKey (some localFileEx) ≠ localFileEx :=
  ⟨rfl, by decide⟩

/-- C4 amended: the load order is — remote first when configured; an S3
*exception* falls back to the local file; a *missing S3 object* yields a
fresh empty record without consulting the local file; with no cloud storage
the local file is read; a missing local file yields a fresh empty record.
No case raises for a not-found condition (the function is total). -/
theorem load_progress_spec (ct : String) (s3 : S3Fetch) (lf : Option Progress)
    (p : Progress) :
    load_progress true "s3" (S3Fetch.ok p) lf = p
    ∧ load_progress true "s3" S3Fetch.noSuchKey lf = freshProgress
    ∧ load_progress true "s3" S3Fetch.err lf = lf.getD freshProgress
    ∧ load_progress false ct s3 lf = lf.getD freshProgress := by
  refine ⟨rfl, rfl, ?_, ?_⟩ <;> cases lf <;> rfl

theorem dlookup_dictSet_self {β : Type} (d : List (String × β)) (k : String)
    (v : β) : dlookup k (dictSet d k v) = some v := by
  induction d with
  | nil => simp [dictSet, keys, dlookup]
  | cons p ps ih =>
    by_cases hpk : p.1 = k
    · have hk : k ∈ keys (p :: ps) := by
        rw [keys_cons, hpk]
        exact List.mem_cons_self k _
      simp only [dictSet, if_pos hk, List.map_cons, if_pos hpk]
      simp [dlookup]
    · by_cases hk : k ∈ keys ps
      · have hk2 : k ∈ keys (p :: ps) := by
          rw [keys_cons]
          exact List.mem_cons_of_mem _ hk
        simp only [dictSet, if_pos hk2, List.map_cons, if_neg hpk]
        simp only [dlookup, if_neg hpk]
        simpa only [dictSet, if_pos hk] using ih
      · have hk2 : k ∉ keys (p :: ps) := by
          rw [keys_cons]
          intro hmem
          rcases List.mem_cons.mp hmem with h | h
          · exact hpk h.symm
          · exact hk h
        simp only [dictSet, if_neg hk2, List.cons_append]
        simp only [dlookup, if_neg hpk]
        simpa only [dictSet, if_neg hk] using ih

/-- C5: every save first writes the local file; the first recorded effect is
the local write of the record with this worker's lease overlaid, and it is
the only local write; the overlaid lease carries the save time and the
record's own `current`; this holds for every S3 outcome and also when the
remote put fails — the failure is swallowed inside `save_progress` (the
function is total) and the local write is unaffected. -/
theorem save_progress_local_first (p : Progress) (vm : String) (now : Int)
    (u : Bool) (ct : String) (s3 : S3Fetch) (pf : Bool) :
    ((save_progress p vm now u ct s3 pf).2).head?
        = some (SaveEvent.writeLocal (leaseOverlay p vm now))
    ∧ ((save_progress p vm now u ct s3 pf).2).filter isLocalWrite
        = [SaveEvent.writeLocal (leaseOverlay p vm now)]
    ∧ (save_progress p vm now u ct s3 pf).1 = leaseOverlay p vm now
    ∧ dlookup vm ((leaseOverlay p vm now).vm_tasks.getD [])
        = some ⟨some now, some p.current.toLease⟩ := by
  refine ⟨?_, ?_, ?_, dlookup_dictSet_self _ _ _⟩ <;>
    cases u <;> by_cases hct : ct = "s3" <;> cases pf <;>
      simp [save_progress, save_progress_to_s3, isLocalWrite, hct]

/-- C3: a lease of another worker whose `last_active` is more than 30 minutes
before the current time never blocks a claim: when every other worker's
lease on the key is stale, `_is_task_in_progress_by_other_vm` returns
`False`. -/
theorem stale_lease_never_blocks (u : Bool) (vm : String) (p : Progress)
    (key : String) (now : Int)
    (h : ∀ e ∈ p.vm_tasks.getD [], e.1 ≠ vm →
        leaseMatches e.2 key = true → leaseStale e.2 now = true) :
    is_task_in_progress_by_other_vm u vm p key now = false := by
  unfold is_task_in_progress_by_other_vm
  cases u
  · rfl
  · rcases hvm : p.vm_tasks with _ | tasks
    · rfl
    · rw [hvm] at h
      simp only [Option.getD_some] at h
      simp only [Bool.not_true, Bool.false_eq_true, if_false]
      refine List.any_eq_false.mpr ?_
      rintro ⟨w, ila, ict⟩ hmem hf
      by_cases hwvm : w = vm
      · rw [if_pos hwvm] at hf
        simp at hf
      · rw [if_neg hwvm] at hf
        rcases ila with _ | la
        · simp at hf
        · simp only at hf
          by_cases hstale : now - la > vmTimeout
          · rw [if_pos hstale] at hf
            simp at hf
          · rw [if_neg hstale] at hf
            rcases ict with _ | t
            · simp at hf
            · simp only at hf
              rcases hlc : leaseCombination t with _ | c
              · rw [hlc] at hf
                simp at hf
              · rw [hlc] at hf
                have hc : c = key := by simpa using hf
                have hm : leaseMatches ⟨some la, some t⟩ key = true := by
                  simp [leaseMatches, hlc, hc]
                have hs := h ⟨w, some la, some t⟩ hmem hwvm hm
                simp only [leaseStale] at hs
                rw [decide_eq_true_eq] at hs
                exact hstale hs

/-- C3 witness: worker `w1`'s lease on the key is 35 minutes old at
`now = 100`, so worker `w2`'s check for that key returns `False`. -/
theorem stale_lease_never_blocks_witness :
    (∀ e ∈ staleLeaseEx.vm_tasks.getD [], e.1 ≠ "w2" →
        leaseMatches e.2 fullKey = true → leaseStale e.2 100 = true)
    ∧ is_task_in_progress_by_other_vm true "w2" staleLeaseEx fullKey 100 = false :=
  ⟨by decide,
   stale_lease_never_blocks true "w2" staleLeaseEx fullKey 100 (by decide)⟩

theorem firstAvailable_key_not_completed (cs : List String)
    (busy : String → Bool) :
    ∀ (l : List TaskTuple) (r : TaskTuple),
      firstAvailable (some cs) busy l = .ok (some r) → tupleKey r ∉ cs := by
  intro l
  induction l with
  | nil =>
    intro r h
    simp [firstAvailable] at h
  | cons c rest ih =>
    intro r h
    by_cases hc : tupleKey c ∉ cs ∧ busy (tupleKey c) = false
    · simp only [firstAvailable, if_pos hc] at h
      obtain rfl : c = r := by simpa using h
      exact hc.1
    · simp only [firstAvailable, if_neg hc] at h
      exact ih r h

/-- C2: when the loaded record's `current` has all five fields set and the
record has a `completed` list, then (a) if the key is not completed and not
claimed by another live worker, `_find_available_task` returns exactly that
tuple, for every dropdown environment — the discovery path is never
consulted; and (b) if the key is in `completed`, the function falls through
to the discovery loop and never returns that tuple. -/
theorem find_available_task_resume (env : DropdownEnv) (u : Bool)
    (vm : String) (p : Progress) (now : Int) (y d t v dn : String)
    (cs : List String)
    (hcur : p.current = ⟨some y, some d, some t, some v, some dn⟩)
    (hcs : p.completed = some cs) :
    (combinationKey y d t v dn ∉ cs →
      is_task_in_progress_by_other_vm u vm p (combinationKey y d t v dn) now
          = false →
      find_available_task env u vm p now = .ok (some (y, d, t, v, dn)))
    ∧ (combinationKey y d t v dn ∈ cs →
      find_available_task env u vm p now
          = firstAvailable (some cs)
              (fun key => is_task_in_progress_by_other_vm u vm p key now)
              (allCombos env)
        ∧ ∀ r, find_available_task env u vm p now = .ok (some r)
            → r ≠ (y, d, t, v, dn)) := by
  have hunfold : find_available_task env u vm p now
      = if combinationKey y d t v dn ∉ cs
          ∧ is_task_in_progress_by_other_vm u vm p (combinationKey y d t v dn) now
              = false
        then .ok (some (y, d, t, v, dn))
        else firstAvailable (some cs)
          (fun key => is_task_in_progress_by_other_vm u vm p key now)
          (allCombos env) := by
    unfold find_available_task
    rw [hcur, hcs]
  constructor
  · intro hnot hbusy
    rw [hunfold, if_pos ⟨hnot, hbusy⟩]
  · intro hin
    have hdisc : find_available_task env u vm p now
        = firstAvailable (some cs)
            (fun key => is_task_in_progress_by_other_vm u vm p key now)
            (allCombos env) := by
      rw [hunfold, if_neg (fun hcond => hcond.1 hin)]
    refine ⟨hdisc, ?_⟩
    intro r hr hreq
    rw [hdisc] at hr
    have hnotin := firstAvailable_key_not_completed cs _ (allCombos env) r hr
    rw [hreq] at hnotin
    exact hnotin hin

/-- C2 witness: the spec's scenario — `current` names the already-completed
key `2024_Pune_Haveli_Hadapsar_3`, so selection does not resume it and
equals the discovery loop's result. -/
theorem find_available_task_resume_witness :
    (resumeEx.current
        = ⟨some "2024", some "Pune", some "Haveli", some "Hadapsar", some "3"⟩
      ∧ resumeEx.completed = some ["2024_Pune_Haveli_Hadapsar_3"]
      ∧ combinationKey "2024" "Pune" "Haveli" "Hadapsar" "3"
          ∈ ["2024_Pune_Haveli_Hadapsar_3"])
    ∧ (find_available_task resumeEnv false "w1" resumeEx 0
          = firstAvailable (some ["2024_Pune_Haveli_Hadapsar_3"])
              (fun key => is_task_in_progress_by_other_vm false "w1" resumeEx key 0)
              (allCombos resumeEnv)
        ∧ ∀ r, find_available_task resumeEnv false "w1" resumeEx 0 = .ok (some r)
            → r ≠ ("2024", "Pune", "Haveli", "Hadapsar", "3")) :=
  ⟨⟨rfl, rfl, by decide⟩,
   (find_available_task_resume resumeEnv false "w1" resumeEx 0
      "2024" "Pune" "Haveli" "Hadapsar" "3" ["2024_Pune_Haveli_Hadapsar_3"]
      rfl rfl).2 (by decide)⟩

/-- C9 counterexample: when the driver cannot be constructed the run is not
aborted — it proceeds in demo mode, and the demo download loop fabricates a
PDF file name out of random draws, so synthetic data is produced. -/
theorem driver_failure_fabricates_output :
    run_dispatch true = RunMode.demo
    ∧ (simulate_download_pdfs "2024" demoDrawEx).1 = ["6177-2024-IndexII_copy.pdf"]
    ∧ (simulate_download_pdfs "2024" demoDrawEx).1 ≠ [] :=
  ⟨rfl, by decide, by decide⟩

/-- C9 amended: a driver-construction failure is logged and the run falls
back to demo mode rather than being surfaced as unrecoverable; demo mode
fabricates at most five files per combination, every one of whose names is
generated from a random draw (`{reg}-{year}-IndexII_copy.pdf`), not from any
real download. -/
theorem driver_failure_demo_spec (year : String) (draws : List DemoDraw) :
    run_dispatch true = RunMode.demo
    ∧ run_dispatch false = RunMode.browser
    ∧ ((simulate_download_pdfs year draws).1).length ≤ 5
    ∧ ((simulate_download_pdfs year draws).1).all
        (fun f => (draws.take 5).any
          (fun dr => dr.opens && (f == pdfName dr.doc_reg_number year))) = true := by
  refine ⟨rfl, rfl, ?_, ?_⟩
  · simp only [simulate_download_pdfs]
    rw [List.length_map]
    calc ((draws.take 5).filter (·.opens)).length
        ≤ (draws.take 5).length := List.length_filter_le _ _
      _ ≤ 5 := by
          rw [List.length_take]
          exact min_le_left _ _
  · simp only [simulate_download_pdfs]
    rw [List.all_eq_true]
    intro f hf
    obtain ⟨dr, hdr, rfl⟩ := List.mem_map.mp hf
    rw [List.any_eq_true]
    refine ⟨dr, List.mem_of_mem_filter hdr, ?_⟩
    have hop : dr.opens = true := by simpa using (List.mem_filter.mp hdr).2
    simp [hop]

theorem inProgressLoop_benign_ok (vm key : String) (now : Int) :
    ∀ l : List (String × RawVmInfo),
      (∀ e ∈ l, e.1 ≠ vm → rawBenign e.2 = true) →
      ∃ b : Bool, inProgressLoop vm key now l = Except.ok b := by
  intro l
  induction l with
  | nil => exact fun _ => ⟨false, rfl⟩
  | cons e rest ih =>
    intro h
    obtain ⟨w, info⟩ := e
    have hrest := ih (fun e he hne => h e (List.mem_cons_of_mem _ he) hne)
    by_cases hwvm : w = vm
    · simpa [inProgressLoop, hwvm] using hrest
    · have hb : rawBenign info = true := h (w, info) (List.mem_cons_self _ _) hwvm
      cases info with
      | nonDict => simp [rawBenign] at hb
      | dict la ct =>
        cases la with
        | absent => simpa [inProgressLoop, hwvm] using hrest
        | strBad => simpa [inProgressLoop, hwvm] using hrest
        | nonStr => simp [rawBenign] at hb
        | strParse t =>
          by_cases hstale : now - t > vmTimeout
          · simpa [inProgressLoop, hwvm, hstale] using hrest
          · cases ct with
            | none => simpa [inProgressLoop, hwvm, hstale] using hrest
            | some task =>
              rcases hlc : leaseCombination task with _ | c
              · simpa [inProgressLoop, hwvm, hstale, hlc] using hrest
              · by_cases hck : c = key
                · exact ⟨true, by simp [inProgressLoop, hwvm, hstale, hlc, hck]⟩
                · simpa [inProgressLoop, hwvm, hstale, hlc, hck] using hrest

theorem inProgressLoop_true_origin (vm key : String) (now : Int) :
    ∀ l : List (String × RawVmInfo),
      inProgressLoop vm key now l = Except.ok true →
      ∃ e ∈ l, e.1 ≠ vm
        ∧ ∃ la ct, e.2 = RawVmInfo.dict (RawLastActive.strParse la) ct
          ∧ ¬ now - la > vmTimeout
          ∧ ∃ t, ct = some t ∧ leaseCombination t = some key := by
  intro l
  induction l with
  | nil =>
    intro h
    simp [inProgressLoop] at h
  | cons e rest ih =>
    intro h
    obtain ⟨w, info⟩ := e
    by_cases hwvm : w = vm
    · rw [show inProgressLoop vm key now ((w, info) :: rest)
          = inProgressLoop vm key now rest from by simp [inProgressLoop, hwvm]] at h
      obtain ⟨e, he, hr⟩ := ih h
      exact ⟨e, List.mem_cons_of_mem _ he, hr⟩
    · cases info with
      | nonDict => simp [inProgressLoop, hwvm] at h
      | dict la ct =>
        cases la with
        | absent =>
          rw [show inProgressLoop vm key now ((w, .dict .absent ct) :: rest)
              = inProgressLoop vm key now rest from by simp [inProgressLoop, hwvm]] at h
          obtain ⟨e, he, hr⟩ := ih h
          exact ⟨e, List.mem_cons_of_mem _ he, hr⟩
        | strBad =>
          rw [show inProgressLoop vm key now ((w, .dict .strBad ct) :: rest)
              = inProgressLoop vm key now rest from by simp [inProgressLoop, hwvm]] at h
          obtain ⟨e, he, hr⟩ := ih h
          exact ⟨e, List.mem_cons_of_mem _ he, hr⟩
        | nonStr => simp [inProgressLoop, hwvm] at h
        | strParse t =>
          by_cases hstale : now - t > vmTimeout
          · rw [show inProgressLoop vm key now ((w, .dict (.strParse t) ct) :: rest)
                = inProgressLoop vm key now rest from by
                  simp [inProgressLoop, hwvm, hstale]] at h
            obtain ⟨e, he, hr⟩ := ih h
            exact ⟨e, List.mem_cons_of_mem _ he, hr⟩
          · cases ct with
            | none =>
              rw [show inProgressLoop vm key now ((w, .dict (.strParse t) none) :: rest)
                  = inProgressLoop vm key now rest from by
                    simp [inProgressLoop, hwvm, hstale]] at h
              obtain ⟨e, he, hr⟩ := ih h
              exact ⟨e, List.mem_cons_of_mem _ he, hr⟩
            | some task =>
              rcases hlc : leaseCombination task with _ | c
              · rw [show inProgressLoop vm key now
                    ((w, .dict (.strParse t) (some task)) :: rest)
                    = inProgressLoop vm key now rest from by
                      simp [inProgressLoop, hwvm, hstale, hlc]] at h
                obtain ⟨e, he, hr⟩ := ih h
                exact ⟨e, List.mem_cons_of_mem _ he, hr⟩
              · by_cases hck : c = key
                · exact ⟨(w, .dict (.strParse t) (some task)),
                    List.mem_cons_self _ _, hwvm, t, some task, rfl, hstale,
                    task, rfl, by rw [hlc, hck]⟩
                · rw [show inProgressLoop vm key now
                      ((w, .dict (.strParse t) (some task)) :: rest)
                      = inProgressLoop vm key now rest from by
                        simp [inProgressLoop, hwvm, hstale, hlc, hck]] at h
                  obtain ⟨e, he, hr⟩ := ih h
                  exact ⟨e, List.mem_cons_of_mem _ he, hr⟩

/-- C10 counterexample: the check does raise.  A lease whose `last_active`
holds a non-string JSON value (`null` or a number), or a worker id mapped to
a non-dict value, makes `_is_task_in_progress_by_other_vm` raise an uncaught
`TypeError` — the `except` at line 1440 catches only
`(ValueError, KeyError)`. -/
theorem in_progress_check_raises_cex :
    is_task_in_progress_raw true "w2"
        (some [("w1", RawVmInfo.dict RawLastActive.nonStr (some fullLease))])
        fullKey 100
      = Except.error "TypeError"
    ∧ is_task_in_progress_raw true "w2" (some [("w1", RawVmInfo.nonDict)])
        fullKey 100
      = Except.error "TypeError" :=
  ⟨rfl, rfl⟩

/-- C10 amended: the check is fail-open on the malformed leases the code
catches — an absent or unparseable-string `last_active`, an unreadable
`current_task`, or one lacking any of the five fields never causes `True`:
whenever the check returns `True`, some other worker's entry is a dict with
a parsed timestamp within the timeout and a `current_task` rendering to the
key.  But the check is not total: it only cannot raise when every other
worker's entry is a dict whose `last_active` is absent or a string; a
non-string `last_active` or a non-dict entry raises an uncaught
`TypeError`. -/
theorem in_progress_raw_fail_open (u : Bool) (vm : String)
    (tasks : Option (List (String × RawVmInfo))) (key : String) (now : Int)
    (h : ∀ e ∈ tasks.getD [], e.1 ≠ vm → rawBenign e.2 = true) :
    (∃ b : Bool, is_task_in_progress_raw u vm tasks key now = Except.ok b)
    ∧ (is_task_in_progress_raw u vm tasks key now = Except.ok true →
      ∃ e ∈ tasks.getD [], e.1 ≠ vm
        ∧ ∃ la ct, e.2 = RawVmInfo.dict (RawLastActive.strParse la) ct
          ∧ ¬ now - la > vmTimeout
          ∧ ∃ t, ct = some t ∧ leaseCombination t = some key) := by
  constructor
  · cases u
    · exact ⟨false, rfl⟩
    · rcases tasks with _ | ts
      · exact ⟨false, rfl⟩
      · simp only [Option.getD_some] at h
        have := inProgressLoop_benign_ok vm key now ts h
        simpa [is_task_in_progress_raw] using this
  · intro hok
    cases u
    · simp [is_task_in_progress_raw] at hok
    · rcases tasks with _ | ts
      · simp [is_task_in_progress_raw] at hok
      · simp only [is_task_in_progress_raw, Bool.not_true, Bool.false_eq_true,
          if_false] at hok
        obtain ⟨e, he, hr⟩ := inProgressLoop_true_origin vm key now ts hok
        exact ⟨e, by simpa using he, hr⟩

/-- C10 witness: a benign `vm_tasks` (one unparseable-string lease, one live
matching lease of worker `w3`) — the check does not raise, and its `True`
outcomes come only from the well-formed live matching lease. -/
theorem in_progress_raw_fail_open_witness :
    (∀ e ∈ (some rawBenignEx).getD [], e.1 ≠ "w2" → rawBenign e.2 = true)
    ∧ ((∃ b : Bool, is_task_in_progress_raw true "w2" (some rawBenignEx)
          fullKey 100 = Except.ok b)
      ∧ (is_task_in_progress_raw true "w2" (some rawBenignEx) fullKey 100
            = Except.ok true →
        ∃ e ∈ (some rawBenignEx).getD [], e.1 ≠ "w2"
          ∧ ∃ la ct, e.2 = RawVmInfo.dict (RawLastActive.strParse la) ct
            ∧ ¬ (100 : Int) - la > vmTimeout
            ∧ ∃ t, ct = some t ∧ leaseCombination t = some fullKey)) :=
  ⟨by decide,
   in_progress_raw_fail_open true "w2" (some rawBenignEx) fullKey 100 (by decide)⟩

end IndexScrapper
